import Mathlib

/-!
Verification development for the moment-estimation and uncertainty-propagation
engine of the Moments repository.

Floating-point scalars of the Python source are embedded as exact rationals;
complex double values become pairs of rationals (the type Cx below).  The
constant math.pi is embedded by piVal, the exact rational value of the IEEE-754
double that Python calls math.pi.  NumPy and LAPACK primitives (np.cov, np.dot,
np.linalg.inv) are external libraries: np.cov and np.dot are embedded by their
documented estimator formulas, and np.linalg.inv is modelled by passing the
inverse matrix as an argument together with the defining equation of a matrix
inverse.
-/

namespace Moments

/-- Complex numbers with exact rational components, embedding the complex
double values of the Python source. -/
structure Cx where
  re : ℚ
  im : ℚ
deriving DecidableEq

@[ext] theorem Cx.ext {z w : Cx} (h1 : z.re = w.re) (h2 : z.im = w.im) : z = w := by
  cases z; cases w; cases h1; cases h2; rfl

instance : Zero Cx := ⟨⟨0, 0⟩⟩

instance : One Cx := ⟨⟨1, 0⟩⟩

instance : Add Cx := ⟨fun z w => ⟨z.re + w.re, z.im + w.im⟩⟩

instance : Neg Cx := ⟨fun z => ⟨-z.re, -z.im⟩⟩

instance : Sub Cx := ⟨fun z w => ⟨z.re - w.re, z.im - w.im⟩⟩

instance : Mul Cx := ⟨fun z w => ⟨z.re * w.re - z.im * w.im, z.re * w.im + z.im * w.re⟩⟩

@[simp] theorem Cx.zero_re : (0 : Cx).re = 0 := rfl

@[simp] theorem Cx.zero_im : (0 : Cx).im = 0 := rfl

@[simp] theorem Cx.one_re : (1 : Cx).re = 1 := rfl

@[simp] theorem Cx.one_im : (1 : Cx).im = 0 := rfl

@[simp] theorem Cx.add_re (z w : Cx) : (z + w).re = z.re + w.re := rfl

@[simp] theorem Cx.add_im (z w : Cx) : (z + w).im = z.im + w.im := rfl

@[simp] theorem Cx.neg_re (z : Cx) : (-z).re = -z.re := rfl

@[simp] theorem Cx.neg_im (z : Cx) : (-z).im = -z.im := rfl

@[simp] theorem Cx.sub_re (z w : Cx) : (z - w).re = z.re - w.re := rfl

@[simp] theorem Cx.sub_im (z w : Cx) : (z - w).im = z.im - w.im := rfl

@[simp] theorem Cx.mul_re (z w : Cx) : (z * w).re = z.re * w.re - z.im * w.im := rfl

@[simp] theorem Cx.mul_im (z w : Cx) : (z * w).im = z.re * w.im + z.im * w.re := rfl

instance : CommRing Cx where
  add_assoc a b c := by ext <;> simp <;> ring
  zero_add a := by ext <;> simp
  add_zero a := by ext <;> simp
  add_comm a b := by ext <;> simp <;> ring
  left_distrib a b c := by ext <;> simp <;> ring
  right_distrib a b c := by ext <;> simp <;> ring
  zero_mul a := by ext <;> simp
  mul_zero a := by ext <;> simp
  mul_assoc a b c := by ext <;> simp <;> ring
  one_mul a := by ext <;> simp
  mul_one a := by ext <;> simp
  mul_comm a b := by ext <;> simp <;> ring
  neg_add_cancel a := by ext <;> simp
  sub_eq_add_neg a b := by ext <;> simp <;> ring
  nsmul := nsmulRec
  zsmul := zsmulRec

/-- Complex conjugation on Cx; the star operation of the embedding. -/
def Cx.conj (z : Cx) : Cx := ⟨z.re, -z.im⟩

instance : StarRing Cx where
  star := Cx.conj
  star_involutive z := by ext <;> simp [Cx.conj]
  star_mul z w := by ext <;> simp [Cx.conj] <;> ring
  star_add z w := by ext <;> simp [Cx.conj] <;> ring

@[simp] theorem Cx.star_re (z : Cx) : (star z).re = z.re := rfl

@[simp] theorem Cx.star_im (z : Cx) : (star z).im = -z.im := rfl

/-- Squared magnitude of a Cx value (the square of the complex absolute value). -/
def Cx.normSq (z : Cx) : ℚ := z.re * z.re + z.im * z.im

instance : Inv Cx := ⟨fun z => ⟨z.re / Cx.normSq z, -z.im / Cx.normSq z⟩⟩

instance : Div Cx := ⟨fun z w => z * w⁻¹⟩

@[simp] theorem Cx.inv_re (z : Cx) : z⁻¹.re = z.re / Cx.normSq z := rfl

@[simp] theorem Cx.inv_im (z : Cx) : z⁻¹.im = -z.im / Cx.normSq z := rfl

theorem Cx.div_def (z w : Cx) : z / w = z * w⁻¹ := rfl

/-- Embedding of a real (rational) scalar as a Cx value. -/
def Cx.ofRat (q : ℚ) : Cx := ⟨q, 0⟩

@[simp] theorem Cx.ofRat_re (q : ℚ) : (Cx.ofRat q).re = q := rfl

@[simp] theorem Cx.ofRat_im (q : ℚ) : (Cx.ofRat q).im = 0 := rfl

@[simp] theorem Cx.star_ofRat (q : ℚ) : star (Cx.ofRat q) = Cx.ofRat q := by
  ext <;> simp [Cx.ofRat]

/-- The imaginary unit. -/
def Cx.I : Cx := ⟨0, 1⟩

/-- The exact rational value of the IEEE-754 double-precision constant math.pi
used by the Python source. -/
def piVal : ℚ := 884279719003555 / 281474976710656

theorem Cx.star_inv (z : Cx) : (star z)⁻¹ = star z⁻¹ := by
  ext <;> simp [Cx.normSq, Cx.conj] <;> ring_nf

theorem Cx.star_div (z w : Cx) : star (z / w) = star z / star w := by
  rw [Cx.div_def, Cx.div_def, star_mul, Cx.star_inv, mul_comm]

theorem Cx.real_of_im_zero {z : Cx} (h : z.im = 0) : star z = z := by
  ext <;> simp [h]

/-!
## Real/complex covariance converters (testComplexUncert.py)

The interleaved layout stores the real covariance matrix with rows and columns
ordered Re 0, Im 0, Re 1, Im 1, ...; even index 2 i carries the real part of
complex component i and odd index 2 i + 1 its imaginary part.
-/

/-- Even (real-part) row or column of the interleaved 2n x 2n layout,
modelling the NumPy slice with start 0 and step 2. -/
def evenIdx {n : ℕ} (i : Fin n) : Fin (2 * n) := ⟨2 * i.val, by omega⟩

/-- Odd (imaginary-part) row or column of the interleaved 2n x 2n layout,
modelling the NumPy slice with start 1 and step 2. -/
def oddIdx {n : ℕ} (i : Fin n) : Fin (2 * n) := ⟨2 * i.val + 1, by omega⟩

/-- Embeds realCovToComplexCov of testComplexUncert.py: converts an
interleaved real 2n x 2n covariance matrix to the Hermitian covariance matrix
(pseudoCovMat false) or the pseudo-covariance matrix (pseudoCovMat true). -/
def realCovToComplexCov {n : ℕ} (covReal : Matrix (Fin (2 * n)) (Fin (2 * n)) ℚ)
    (pseudoCovMat : Bool) : Matrix (Fin n) (Fin n) Cx :=
  fun i j =>
    let vReRe := covReal (evenIdx i) (evenIdx j)
    let vImIm := covReal (oddIdx i) (oddIdx j)
    let vReIm := covReal (evenIdx i) (oddIdx j)
    let vImRe := covReal (oddIdx i) (evenIdx j)
    if pseudoCovMat then ⟨vReRe - vImIm, vImRe + vReIm⟩ else ⟨vReRe + vImIm, vImRe - vReIm⟩

/-- Embeds complexCovToRealCov of testComplexUncert.py: converts the Hermitian
and pseudo-covariance matrices into the interleaved real 2n x 2n covariance
matrix. -/
def complexCovToRealCov {n : ℕ} (covHermit covPseudo : Matrix (Fin n) (Fin n) Cx) :
    Matrix (Fin (2 * n)) (Fin (2 * n)) ℚ :=
  fun a b =>
    let i : Fin n := ⟨a.val / 2, by omega⟩
    let j : Fin n := ⟨b.val / 2, by omega⟩
    if a.val % 2 = 0 then
      if b.val % 2 = 0 then ((covHermit i j).re + (covPseudo i j).re) / 2
      else ((covPseudo i j).im - (covHermit i j).im) / 2
    else
      if b.val % 2 = 0 then ((covPseudo i j).im + (covHermit i j).im) / 2
      else ((covHermit i j).re - (covPseudo i j).re) / 2

/-- Embeds realCovToComplexCov2 of testComplexUncert.py: same conversion as
realCovToComplexCov but reading the real matrix in the block layout, whose
first n rows and columns are real parts and last n rows and columns are
imaginary parts. -/
def realCovToComplexCov2 {n : ℕ} (covReal : Matrix (Fin (2 * n)) (Fin (2 * n)) ℚ)
    (pseudoCovMat : Bool) : Matrix (Fin n) (Fin n) Cx :=
  fun i j =>
    let vReRe := covReal ⟨i.val, by omega⟩ ⟨j.val, by omega⟩
    let vImIm := covReal ⟨n + i.val, by omega⟩ ⟨n + j.val, by omega⟩
    let vReIm := covReal ⟨i.val, by omega⟩ ⟨n + j.val, by omega⟩
    let vImRe := covReal ⟨n + i.val, by omega⟩ ⟨j.val, by omega⟩
    if pseudoCovMat then ⟨vReRe - vImIm, vImRe + vReIm⟩ else ⟨vReRe + vImIm, vImRe - vReIm⟩

/-- Embeds complexCovToRealCov2 of testComplexUncert.py: inverse conversion
producing the real covariance matrix in the block layout via np.block. -/
def complexCovToRealCov2 {n : ℕ} (covHermit covPseudo : Matrix (Fin n) (Fin n) Cx) :
    Matrix (Fin (2 * n)) (Fin (2 * n)) ℚ :=
  fun a b =>
    if ha : a.val < n then
      if hb : b.val < n then ((covHermit ⟨a.val, ha⟩ ⟨b.val, hb⟩).re + (covPseudo ⟨a.val, ha⟩ ⟨b.val, hb⟩).re) / 2
      else ((covPseudo ⟨a.val, ha⟩ ⟨b.val - n, by omega⟩).im - (covHermit ⟨a.val, ha⟩ ⟨b.val - n, by omega⟩).im) / 2
    else
      if hb : b.val < n then ((covPseudo ⟨a.val - n, by omega⟩ ⟨b.val, hb⟩).im + (covHermit ⟨a.val - n, by omega⟩ ⟨b.val, hb⟩).im) / 2
      else ((covHermit ⟨a.val - n, by omega⟩ ⟨b.val - n, by omega⟩).re - (covPseudo ⟨a.val - n, by omega⟩ ⟨b.val - n, by omega⟩).re) / 2

@[simp] theorem Cx.mk_re (a b : ℚ) : (Cx.mk a b).re = a := rfl

@[simp] theorem Cx.mk_im (a b : ℚ) : (Cx.mk a b).im = b := rfl

@[simp] theorem evenIdx_val {n : ℕ} (i : Fin n) : (evenIdx i).val = 2 * i.val := rfl

@[simp] theorem oddIdx_val {n : ℕ} (i : Fin n) : (oddIdx i).val = 2 * i.val + 1 := rfl

@[simp] theorem two_mul_mod_two (k : ℕ) : 2 * k % 2 = 0 := by omega

@[simp] theorem two_mul_add_one_mod_two (k : ℕ) : (2 * k + 1) % 2 = 1 := by omega

@[simp] theorem two_mul_div_two (k : ℕ) : 2 * k / 2 = k := by omega

@[simp] theorem two_mul_add_one_div_two (k : ℕ) : (2 * k + 1) / 2 = k := by omega

/-- Every index of the interleaved 2n-dimensional layout is an even or an odd
index of a unique complex component. -/
theorem interleaved_cases {n : ℕ} (a : Fin (2 * n)) :
    (∃ i : Fin n, a = evenIdx i) ∨ (∃ i : Fin n, a = oddIdx i) := by
  by_cases h : a.val % 2 = 0
  · exact Or.inl ⟨⟨a.val / 2, by omega⟩, Fin.ext (by simp; omega)⟩
  · exact Or.inr ⟨⟨a.val / 2, by omega⟩, Fin.ext (by simp; omega)⟩

/-- C1: converting a real 2n x 2n covariance matrix to the complex
representation (Hermitian plus pseudo-covariance) and back is the identity,
and converting a Hermitian matrix H together with a symmetric matrix P to the
real representation and back returns H (Hermitian variant) and P (pseudo
variant); both round trips hold for every dimension n, in particular for
n = 1 and for n at least 2 with non-trivial cross-terms. -/
theorem C1_converter_roundtrip (n : ℕ) :
    (∀ X : Matrix (Fin (2 * n)) (Fin (2 * n)) ℚ,
      complexCovToRealCov (realCovToComplexCov X false) (realCovToComplexCov X true) = X)
    ∧ (∀ H P : Matrix (Fin n) (Fin n) Cx, H.IsHermitian → P.transpose = P →
      realCovToComplexCov (complexCovToRealCov H P) false = H
      ∧ realCovToComplexCov (complexCovToRealCov H P) true = P) := by
  constructor
  · intro X
    funext a b
    rcases interleaved_cases a with ⟨i, rfl⟩ | ⟨i, rfl⟩ <;>
      rcases interleaved_cases b with ⟨j, rfl⟩ | ⟨j, rfl⟩ <;>
        simp [complexCovToRealCov, realCovToComplexCov, Fin.eta] <;> ring
  · intro H P _ _
    constructor <;>
      · funext i j
        ext <;> simp [complexCovToRealCov, realCovToComplexCov, Fin.eta] <;> ring

/-- Witness for C1 at dimension n = 2 with non-trivial cross-terms: a concrete
Hermitian matrix with non-real off-diagonal entries and a concrete symmetric
pseudo-covariance matrix. -/
theorem C1_converter_roundtrip_witness :
    (Matrix.IsHermitian (Matrix.of ![![Cx.mk 2 0, Cx.mk 1 1], ![Cx.mk 1 (-1), Cx.mk 3 0]])
      ∧ Matrix.transpose (Matrix.of ![![Cx.mk 1 2, Cx.mk 3 4], ![Cx.mk 3 4, Cx.mk 5 6]])
        = Matrix.of ![![Cx.mk 1 2, Cx.mk 3 4], ![Cx.mk 3 4, Cx.mk 5 6]])
    ∧ (realCovToComplexCov
        (complexCovToRealCov (Matrix.of ![![Cx.mk 2 0, Cx.mk 1 1], ![Cx.mk 1 (-1), Cx.mk 3 0]])
          (Matrix.of ![![Cx.mk 1 2, Cx.mk 3 4], ![Cx.mk 3 4, Cx.mk 5 6]])) false
        = Matrix.of ![![Cx.mk 2 0, Cx.mk 1 1], ![Cx.mk 1 (-1), Cx.mk 3 0]]
      ∧ realCovToComplexCov
        (complexCovToRealCov (Matrix.of ![![Cx.mk 2 0, Cx.mk 1 1], ![Cx.mk 1 (-1), Cx.mk 3 0]])
          (Matrix.of ![![Cx.mk 1 2, Cx.mk 3 4], ![Cx.mk 3 4, Cx.mk 5 6]])) true
        = Matrix.of ![![Cx.mk 1 2, Cx.mk 3 4], ![Cx.mk 3 4, Cx.mk 5 6]]) :=
  ⟨⟨by decide, by decide⟩,
    (C1_converter_roundtrip 2).2
      (Matrix.of ![![Cx.mk 2 0, Cx.mk 1 1], ![Cx.mk 1 (-1), Cx.mk 3 0]])
      (Matrix.of ![![Cx.mk 1 2, Cx.mk 3 4], ![Cx.mk 3 4, Cx.mk 5 6]])
      (by decide) (by decide)⟩

/-- Index permutation taking the interleaved layout to the block layout:
block position i < n (real part of component i) corresponds to interleaved
position 2 i, and block position n + i (imaginary part of component i) to
interleaved position 2 i + 1. -/
def blockToInterleaved {n : ℕ} (a : Fin (2 * n)) : Fin (2 * n) :=
  if h : a.val < n then ⟨2 * a.val, by omega⟩ else ⟨2 * (a.val - n) + 1, by omega⟩

/-- Inverse of blockToInterleaved. -/
def interleavedToBlock {n : ℕ} (a : Fin (2 * n)) : Fin (2 * n) :=
  if a.val % 2 = 0 then ⟨a.val / 2, by omega⟩ else ⟨n + a.val / 2, by omega⟩

theorem interleavedToBlock_blockToInterleaved {n : ℕ} (k : Fin (2 * n)) :
    interleavedToBlock (blockToInterleaved k) = k := by
  apply Fin.ext
  by_cases h : k.val < n <;> simp [blockToInterleaved, interleavedToBlock, h] <;> omega

theorem blockToInterleaved_interleavedToBlock {n : ℕ} (a : Fin (2 * n)) :
    blockToInterleaved (interleavedToBlock a) = a := by
  apply Fin.ext
  by_cases h : a.val % 2 = 0 <;>
    simp [blockToInterleaved, interleavedToBlock, h] <;> (try split) <;> (try simp) <;> omega

theorem eq_blockToInterleaved_iff {n : ℕ} (a k : Fin (2 * n)) :
    a = blockToInterleaved k ↔ k = interleavedToBlock a := by
  constructor
  · rintro rfl
    exact (interleavedToBlock_blockToInterleaved k).symm
  · rintro rfl
    exact (blockToInterleaved_interleavedToBlock a).symm

/-- The permutation matrix of blockToInterleaved: row a has its 1 in column
blockToInterleaved a, so that left multiplication reindexes block-layout rows
by interleaved-layout rows. -/
def permMat (n : ℕ) : Matrix (Fin (2 * n)) (Fin (2 * n)) ℚ :=
  fun a b => if b = blockToInterleaved a then 1 else 0

theorem permMat_conj_apply {n : ℕ} (X : Matrix (Fin (2 * n)) (Fin (2 * n)) ℚ)
    (a b : Fin (2 * n)) :
    (permMat n * X * (permMat n).transpose) a b
      = X (blockToInterleaved a) (blockToInterleaved b) := by
  simp [Matrix.mul_apply, permMat, Matrix.transpose_apply, Finset.sum_comm (γ := Fin (2 * n))]

theorem permMat_conj_rev_apply {n : ℕ} (Y : Matrix (Fin (2 * n)) (Fin (2 * n)) ℚ)
    (a b : Fin (2 * n)) :
    ((permMat n).transpose * Y * permMat n) a b
      = Y (interleavedToBlock a) (interleavedToBlock b) := by
  simp [Matrix.mul_apply, permMat, Matrix.transpose_apply, eq_blockToInterleaved_iff]

theorem blockToInterleaved_low {n : ℕ} (i : Fin n) (h : i.val < 2 * n) :
    blockToInterleaved (⟨i.val, h⟩ : Fin (2 * n)) = evenIdx i := by
  apply Fin.ext
  simp [blockToInterleaved, i.isLt]

theorem blockToInterleaved_high {n : ℕ} (i : Fin n) (h : n + i.val < 2 * n) :
    blockToInterleaved (⟨n + i.val, h⟩ : Fin (2 * n)) = oddIdx i := by
  apply Fin.ext
  simp [blockToInterleaved, show ¬(n + i.val < n) by omega]

theorem interleavedToBlock_even {n : ℕ} (i : Fin n) :
    interleavedToBlock (evenIdx i) = ⟨i.val, by omega⟩ := by
  apply Fin.ext
  simp [interleavedToBlock]

theorem interleavedToBlock_odd {n : ℕ} (i : Fin n) :
    interleavedToBlock (oddIdx i) = ⟨n + i.val, by omega⟩ := by
  apply Fin.ext
  simp [interleavedToBlock]

/-- C10: the interleaved-layout and block-layout covariance converters compute
the same mathematical map: realCovToComplexCov applied to an interleaved
matrix X agrees with realCovToComplexCov2 applied to the block-layout matrix
P X P_transpose, for both the Hermitian and the pseudo variant, where P is the
permutation matrix taking the interleaved layout to the block layout; and
complexCovToRealCov H P_cov equals P_transpose (complexCovToRealCov2 H P_cov) P,
so the two toReal variants produce permutation-equivalent outputs. -/
theorem C10_converter_variants_equivalent (n : ℕ) :
    (∀ (X : Matrix (Fin (2 * n)) (Fin (2 * n)) ℚ) (pseudoCovMat : Bool),
      realCovToComplexCov X pseudoCovMat
        = realCovToComplexCov2 (permMat n * X * (permMat n).transpose) pseudoCovMat)
    ∧ (∀ H P : Matrix (Fin n) (Fin n) Cx, H.IsHermitian → P.transpose = P →
      complexCovToRealCov H P
        = (permMat n).transpose * complexCovToRealCov2 H P * permMat n) := by
  constructor
  · intro X pseudoCovMat
    funext i j
    simp only [realCovToComplexCov, realCovToComplexCov2, permMat_conj_apply,
      blockToInterleaved_low, blockToInterleaved_high]
  · intro H P _ _
    funext a b
    rw [permMat_conj_rev_apply]
    rcases interleaved_cases a with ⟨i, rfl⟩ | ⟨i, rfl⟩ <;>
      rcases interleaved_cases b with ⟨j, rfl⟩ | ⟨j, rfl⟩ <;>
        simp [complexCovToRealCov, complexCovToRealCov2, interleavedToBlock_even,
          interleavedToBlock_odd, Fin.eta, Fin.is_lt, show ∀ k : ℕ, ¬(n + k < n) by omega]

/-- Witness for C10 at dimension n = 1: a concrete Hermitian matrix and a
concrete symmetric pseudo-covariance matrix. -/
theorem C10_converter_variants_equivalent_witness :
    (Matrix.IsHermitian (Matrix.of ![![Cx.mk 2 0]])
      ∧ Matrix.transpose (Matrix.of ![![Cx.mk 1 3]]) = Matrix.of ![![Cx.mk 1 3]])
    ∧ complexCovToRealCov (Matrix.of ![![Cx.mk 2 0]]) (Matrix.of ![![Cx.mk 1 3]])
        = (permMat 1).transpose
          * complexCovToRealCov2 (Matrix.of ![![Cx.mk 2 0]]) (Matrix.of ![![Cx.mk 1 3]])
          * permMat 1 :=
  ⟨⟨by decide, by decide⟩,
    (C10_converter_variants_equivalent 1).2 (Matrix.of ![![Cx.mk 2 0]])
      (Matrix.of ![![Cx.mk 1 3]]) (by decide) (by decide)⟩

/-!
## Moment index enumeration (testMomentsPhotoProd.py)

Every component of the pipeline enumerates quantum-number triples
(momentIndex, L, M) by the same nested loop: momentIndex over range 3,
L over range (2 maxL + 2), M over range (L + 1), skipping the structurally
zero entries with momentIndex = 2 and M = 0.
-/

/-- The ordered list of quantum-number triples traversed by the nested loops of
calculatePhotoProdMoments (basis-value accumulation, measured-moment printing,
integral-matrix assembly and output reformatting all use this loop verbatim). -/
def momentIndices (maxL : ℕ) : List (ℕ × ℕ × ℕ) :=
  (List.range 3).flatMap fun momentIndex =>
    (List.range (2 * maxL + 2)).flatMap fun L =>
      (List.range (L + 1)).filterMap fun M =>
        if momentIndex = 2 ∧ M = 0 then none else some (momentIndex, L, M)

/-- The same triple enumeration as it appears in calcIntegralMatrix when
filling the dictionaries of basis-function values. -/
def momentIndicesIM (maxL : ℕ) : List (ℕ × ℕ × ℕ) :=
  (List.range 3).flatMap fun momentIndex =>
    (List.range (2 * maxL + 2)).flatMap fun L =>
      (List.range (L + 1)).filterMap fun M =>
        if momentIndex = 2 ∧ M = 0 then none else some (momentIndex, L, M)

/-- The running moment counter of calculatePhotoProdMoments (the poor-man's way
of getting the number of moments): the same nested loop incrementing a counter
instead of collecting triples. -/
def countMoments (maxL : ℕ) : ℕ :=
  (List.range 3).foldl (fun acc momentIndex =>
    (List.range (2 * maxL + 2)).foldl (fun acc2 L =>
      (List.range (L + 1)).foldl (fun acc3 M =>
        if momentIndex = 2 ∧ M = 0 then acc3 else acc3 + 1) acc2) acc) 0

/-- The dimension n of the moment vector, measured on the enumeration. -/
def nmbMoments (maxL : ℕ) : ℕ := (momentIndices maxL).length

theorem foldl_count_filterMap {β : Type} (p : ℕ → Prop) [DecidablePred p]
    (g : ℕ → β) (l : List ℕ) (acc : ℕ) :
    l.foldl (fun a M => if p M then a else a + 1) acc
      = acc + (l.filterMap fun M => if p M then (none : Option β) else some (g M)).length := by
  induction l generalizing acc with
  | nil => simp
  | cons x xs ih =>
    by_cases h : p x <;> simp [h, ih] <;> omega

theorem foldl_add_length {α β : Type} (f : β → List α) (l : List β) (acc : ℕ) :
    l.foldl (fun a x => a + (f x).length) acc = acc + (l.flatMap f).length := by
  induction l generalizing acc with
  | nil => simp
  | cons x xs ih => simp [ih, Nat.add_assoc]

theorem foldl_count_inner (i L acc : ℕ) :
    (List.range (L + 1)).foldl (fun a M => if i = 2 ∧ M = 0 then a else a + 1) acc
      = acc + ((List.range (L + 1)).filterMap fun M =>
          if i = 2 ∧ M = 0 then none else some (i, L, M)).length :=
  foldl_count_filterMap (fun M => i = 2 ∧ M = 0) (fun M => (i, L, M)) _ _

theorem countMoments_eq_length (maxL : ℕ) : countMoments maxL = nmbMoments maxL := by
  unfold countMoments nmbMoments momentIndices
  simp only [foldl_count_inner]
  simp only [foldl_add_length, Nat.zero_add]

theorem mem_momentIndices (maxL i L M : ℕ) :
    (i, L, M) ∈ momentIndices maxL
      ↔ i < 3 ∧ L < 2 * maxL + 2 ∧ M ≤ L ∧ ¬(i = 2 ∧ M = 0) := by
  simp only [momentIndices, List.mem_flatMap, List.mem_filterMap, List.mem_range]
  constructor
  · rintro ⟨i2, hi2, L2, hL2, M2, hM2, h⟩
    split at h
    · exact absurd h (by simp)
    · rename_i hc
      obtain ⟨rfl, rfl, rfl⟩ : i2 = i ∧ L2 = L ∧ M2 = M := by
        simpa [Prod.ext_iff] using h
      exact ⟨hi2, hL2, by omega, hc⟩
  · rintro ⟨h1, h2, h3, h4⟩
    exact ⟨i, h1, L, h2, M, by omega, by rw [if_neg h4]⟩

theorem momentIndices_nodup (maxL : ℕ) : (momentIndices maxL).Nodup := by
  unfold momentIndices
  rw [List.nodup_flatMap]
  constructor
  · intro i _
    rw [List.nodup_flatMap]
    constructor
    · intro L _
      refine List.Nodup.filterMap ?_ (List.nodup_range _)
      intro M M2 t hM hM2
      split at hM
      · simp at hM
      · split at hM2
        · simp at hM2
        · simp only [Option.mem_def, Option.some_inj] at hM hM2
          rw [← hM2] at hM
          simpa [Prod.ext_iff] using hM
    · refine List.Pairwise.imp ?_ (List.pairwise_lt_range _)
      intro L L2 hLL
      rw [Function.onFun, List.disjoint_left]
      intro t ht ht2
      simp only [List.mem_filterMap] at ht ht2
      obtain ⟨M, _, hM⟩ := ht
      obtain ⟨M2, _, hM2⟩ := ht2
      have e1 : t.2.1 = L := by
        split at hM
        · simp at hM
        · simp only [Option.some_inj] at hM
          rw [← hM]
      have e2 : t.2.1 = L2 := by
        split at hM2
        · simp at hM2
        · simp only [Option.some_inj] at hM2
          rw [← hM2]
      omega
  · refine List.Pairwise.imp ?_ (List.pairwise_lt_range _)
    intro i i2 hii
    rw [Function.onFun, List.disjoint_left]
    intro t ht ht2
    simp only [List.mem_flatMap, List.mem_filterMap] at ht ht2
    obtain ⟨L, _, M, _, hM⟩ := ht
    obtain ⟨L2, _, M2, _, hM2⟩ := ht2
    have e1 : t.1 = i := by
      split at hM
      · simp at hM
      · simp only [Option.some_inj] at hM
        rw [← hM]
    have e2 : t.1 = i2 := by
      split at hM2
      · simp at hM2
      · simp only [Option.some_inj] at hM2
        rw [← hM2]
    omega

theorem momentIndices_head (maxL : ℕ) :
    ∃ t, momentIndices maxL = ((0, 0, 0) : ℕ × ℕ × ℕ) :: t := by
  unfold momentIndices
  rw [show List.range 3 = [0, 1, 2] by decide]
  rw [show (2 * maxL + 2) = (2 * maxL + 1) + 1 from rfl, List.range_succ_eq_map]
  simp
  exact ⟨_, rfl⟩

instance instNeZeroNmbMoments (maxL : ℕ) : NeZero (nmbMoments maxL) := by
  obtain ⟨t, ht⟩ := momentIndices_head maxL
  exact ⟨by simp [nmbMoments, ht]⟩

/-- C8: for every maxL, the triple enumerations of the system agree: the
enumeration of calcIntegralMatrix equals the enumeration of
calculatePhotoProdMoments, the running moment counter equals its length, the
enumeration contains exactly the triples with momentIndex below 3, L below
2 maxL + 2 and M at most L except those with momentIndex = 2 and M = 0, and
the enumeration has no duplicates, so the flat index of a triple is the same
in every component. -/
theorem C8_index_enumeration (maxL : ℕ) :
    momentIndicesIM maxL = momentIndices maxL
    ∧ countMoments maxL = (momentIndices maxL).length
    ∧ (∀ i L M : ℕ, (i, L, M) ∈ momentIndices maxL
        ↔ i < 3 ∧ L < 2 * maxL + 2 ∧ M ≤ L ∧ ¬(i = 2 ∧ M = 0))
    ∧ (momentIndices maxL).Nodup :=
  ⟨rfl, countMoments_eq_length maxL, mem_momentIndices maxL, momentIndices_nodup maxL⟩

/-!
## Raw moment accumulation (testMomentsPhotoProd.py, lines 377 to 390)

Events are modelled by an arbitrary type E together with a basis-function
valuation fMeas mapping a quantum-number triple and an event to a complex
value; this embeds the externally supplied C++ function ROOT.f_meas evaluated
on the theta, phi, Phi arrays and the polarization.  np.sum, np.mean and
np.cov are embedded by their documented formulas; np.cov divides by the
degrees of freedom N - ddof with ddof = 1 and clips a non-positive divisor to
zero (emitting only a RuntimeWarning), which in exact rational arithmetic
makes the division-by-zero junk value zero.
-/

/-- Sum of a per-event quantity over an event sample, embedding the reduction
along the event axis performed by np.sum and np.dot. -/
def eventSum {E : Type} (events : List E) (f : E → Cx) : Cx := (events.map f).sum

/-- Mean over the observation axis, as used by np.cov. -/
def avg {E : Type} (events : List E) (x : E → Cx) : Cx :=
  Cx.ofRat (1 / (events.length : ℚ)) * eventSum events x

/-- The normalization divisor of np.cov with default ddof 1: N - 1, clipped to
zero when non-positive. -/
def npCovFact (N : ℕ) : ℚ := if N ≤ 1 then 0 else (N : ℚ) - 1

/-- Embedding of np.cov on an observation matrix with rows indexed by ι and
one column per event: entry (i, j) is the centered cross product with the
second factor conjugated, divided by the clipped degrees of freedom. -/
def npCov {ι E : Type} (X : ι → E → Cx) (events : List E) : Matrix ι ι Cx :=
  fun i j =>
    Cx.ofRat (1 / npCovFact events.length)
      * eventSum events fun e =>
          (X i e - avg events (X i)) * star (X j e - avg events (X j))

/-- The row stacking performed by np.cov(f_meas, np.conjugate(f_meas)): the
first block of rows holds the basis values, the second their conjugates. -/
def stackedWithConj {ι E : Type} (f : ι → E → Cx) : (ι ⊕ ι) → E → Cx :=
  Sum.elim f fun i e => star (f i e)

/-- The rows of the matrix f_meas of basis-function values: row k evaluates
the k-th enumerated triple. -/
def fMeasRows (maxL : ℕ) {E : Type} (fMeas : ℕ × ℕ × ℕ → E → Cx) :
    Fin (nmbMoments maxL) → E → Cx :=
  fun k => fMeas ((momentIndices maxL).get k)

/-- Embeds the raw moment accumulation of calculatePhotoProdMoments: the
measured moment vector H_meas with entries 2 pi times the event sum of the
basis values, and the augmented covariance matrix
V_meas_aug = (2 pi)^2 N np.cov(f_meas, conj f_meas). -/
def measuredMoments (maxL : ℕ) {E : Type} (fMeas : ℕ × ℕ × ℕ → E → Cx)
    (events : List E) :
    (Fin (nmbMoments maxL) → Cx)
      × Matrix (Fin (nmbMoments maxL) ⊕ Fin (nmbMoments maxL))
          (Fin (nmbMoments maxL) ⊕ Fin (nmbMoments maxL)) Cx :=
  (fun k => Cx.ofRat (2 * piVal) * eventSum events (fMeasRows maxL fMeas k),
   fun i j => Cx.ofRat ((2 * piVal) ^ 2 * (events.length : ℚ))
     * npCov (stackedWithConj (fMeasRows maxL fMeas)) events i j)

/-- The raw accumulation in an error monad.  The source raises no error on
this path: the only assertion checks that the three input arrays have equal
shape, which holds by construction for a single event list, and np.cov emits
only a RuntimeWarning when fewer than two events are supplied.  The Except
form records that no input aborts the accumulation. -/
def measuredMomentsChecked (maxL : ℕ) {E : Type} (fMeas : ℕ × ℕ × ℕ → E → Cx)
    (events : List E) :
    Except Unit ((Fin (nmbMoments maxL) → Cx)
      × Matrix (Fin (nmbMoments maxL) ⊕ Fin (nmbMoments maxL))
          (Fin (nmbMoments maxL) ⊕ Fin (nmbMoments maxL)) Cx) :=
  Except.ok (measuredMoments maxL fMeas events)

/-- C3: for every input sample, the k-th measured moment is 2 pi times the sum
over all events of the k-th measured basis-function value, and the augmented
covariance equals (2 pi)^2 N times the unbiased, N - 1 normalized sample
covariance of the stacked vector formed by the basis values and their complex
conjugates (stated for N at least 2, where the unbiased sample covariance is
defined). -/
theorem C3_raw_accumulation (maxL : ℕ) {E : Type} (fMeas : ℕ × ℕ × ℕ → E → Cx)
    (events : List E) (h2 : 2 ≤ events.length) :
    (∀ k : Fin (nmbMoments maxL),
      (measuredMoments maxL fMeas events).1 k
        = Cx.ofRat (2 * piVal)
          * (events.map fun e => fMeas ((momentIndices maxL).get k) e).sum)
    ∧ (∀ i j : Fin (nmbMoments maxL) ⊕ Fin (nmbMoments maxL),
      (measuredMoments maxL fMeas events).2 i j
        = Cx.ofRat ((2 * piVal) ^ 2 * (events.length : ℚ))
          * (Cx.ofRat (1 / ((events.length : ℚ) - 1))
            * (events.map fun e =>
                (stackedWithConj (fMeasRows maxL fMeas) i e
                    - avg events (stackedWithConj (fMeasRows maxL fMeas) i))
                  * star (stackedWithConj (fMeasRows maxL fMeas) j e
                    - avg events (stackedWithConj (fMeasRows maxL fMeas) j))).sum)) := by
  constructor
  · intro k
    rfl
  · intro i j
    show Cx.ofRat ((2 * piVal) ^ 2 * (events.length : ℚ))
        * npCov (stackedWithConj (fMeasRows maxL fMeas)) events i j = _
    rw [npCov, npCovFact, if_neg (by omega : ¬ events.length ≤ 1)]
    rfl

/-- Concrete two-event sample used by the C3 witness. -/
def wEvents : List ℕ := [3, 5]

/-- Concrete basis valuation used by the C3 witness. -/
def wBasis (t : ℕ × ℕ × ℕ) (a : ℕ) : Cx := Cx.mk ((t.1 : ℚ) + (a : ℚ)) (t.2.1 : ℚ)

/-- Witness for C3: a concrete two-event sample at maxL = 0 with a concrete
basis valuation. -/
theorem C3_raw_accumulation_witness :
    2 ≤ wEvents.length
    ∧ ∀ k : Fin (nmbMoments 0),
      (measuredMoments 0 wBasis wEvents).1 k
        = Cx.ofRat (2 * piVal)
          * (wEvents.map fun e => wBasis ((momentIndices 0).get k) e).sum :=
  ⟨by decide, (C3_raw_accumulation 0 wBasis wEvents (by decide)).1⟩

/-- C6 counterexample: on a concrete single-event sample the raw accumulation
returns normally (Except.ok) instead of raising an error. -/
theorem C6_single_event_no_error :
    (measuredMomentsChecked 0 (fun _ _ => Cx.I) [(0 : ℕ)]).isOk = true := rfl

/-- C6 amended: for every input sample with fewer than two events the raw
accumulation does not raise; it silently returns a degenerate augmented
covariance, namely the exact-arithmetic zero matrix that corresponds to the
all-NaN matrix numpy produces after clipping the degrees of freedom to zero. -/
theorem C6_small_sample_degenerate (maxL : ℕ) {E : Type}
    (fMeas : ℕ × ℕ × ℕ → E → Cx) (events : List E) (h : events.length < 2) :
    measuredMomentsChecked maxL fMeas events = Except.ok (measuredMoments maxL fMeas events)
    ∧ (measuredMoments maxL fMeas events).2 = 0 := by
  refine ⟨rfl, ?_⟩
  funext i j
  show Cx.ofRat ((2 * piVal) ^ 2 * (events.length : ℚ))
      * npCov (stackedWithConj (fMeasRows maxL fMeas)) events i j
      = (0 : Matrix _ _ Cx) i j
  rw [npCov, npCovFact, if_pos (by omega : events.length ≤ 1)]
  rw [show (1 : ℚ) / 0 = 0 from div_zero 1]
  rw [show Cx.ofRat 0 = 0 from rfl]
  simp only [zero_mul, mul_zero, Matrix.zero_apply]

/-- Witness for C6 amended: a concrete single-event sample. -/
theorem C6_small_sample_degenerate_witness :
    ([(7 : ℕ)] : List ℕ).length < 2
    ∧ (measuredMomentsChecked 0 (fun _ _ => Cx.I) [(7 : ℕ)]
        = Except.ok (measuredMoments 0 (fun _ _ => Cx.I) [(7 : ℕ)])
      ∧ (measuredMoments 0 (fun _ _ => Cx.I) [(7 : ℕ)]).2 = 0) :=
  ⟨by decide, C6_small_sample_degenerate 0 (fun _ _ => Cx.I) [(7 : ℕ)] (by decide)⟩

/-!
## Acceptance integral matrix (testMomentsPhotoProd.py, lines 321 to 350)

The Python function returns a dict keyed by concatenated index 6-tuples in
insertion order; it is embedded as an association list keyed by pairs of
triples, looked up like the dict.  np.dot on two one-dimensional complex
arrays is the plain sum of products without conjugation.
-/

/-- Embeds calcIntegralMatrix: for every pair of a measured and a physical
triple, in enumeration order, the entry 8 pi^2 / nmbGenEvents times the dot
product of the measured and physical basis values over the phase-space
events. -/
def calcIntegralMatrix (maxL : ℕ) {E : Type} (fMeas fPhys : ℕ × ℕ × ℕ → E → Cx)
    (events : List E) (nmbGenEvents : ℕ) :
    List (((ℕ × ℕ × ℕ) × (ℕ × ℕ × ℕ)) × Cx) :=
  (momentIndices maxL).flatMap fun tm =>
    (momentIndices maxL).map fun tp =>
      ((tm, tp), Cx.ofRat (8 * piVal ^ 2 / (nmbGenEvents : ℚ))
        * eventSum events fun e => fMeas tm e * fPhys tp e)

theorem lookup_append {α β : Type} [BEq α] (k : α) (xs ys : List (α × β)) :
    (xs ++ ys).lookup k = ((xs.lookup k).or (ys.lookup k)) := by
  induction xs with
  | nil => simp [List.lookup]
  | cons x xs ih =>
    rcases x with ⟨a, b⟩
    simp only [List.cons_append, List.lookup]
    cases h : k == a <;> simp [h, ih]

theorem lookup_map_pairs {T V : Type} [BEq T] [LawfulBEq T] (tm : T) (f : T → V)
    (l : List T) (b : T) (hb : b ∈ l) :
    (l.map fun tp => ((tm, tp), f tp)).lookup (tm, b) = some (f b) := by
  induction l with
  | nil => cases hb
  | cons x xs ih =>
    simp only [List.map_cons, List.lookup]
    cases hx : ((tm, b) == (tm, x)) with
    | true =>
      have hbx : b = x := by
        have := eq_of_beq hx
        simpa [Prod.ext_iff] using this
      rw [hbx]
    | false =>
      have hbx : b ≠ x := by
        intro h
        subst h
        simp at hx
      exact ih (by
        rcases List.mem_cons.mp hb with h | h
        · exact absurd h hbx
        · exact h)

theorem lookup_map_pairs_none {T V : Type} [BEq T] [LawfulBEq T] (a tm b : T)
    (f : T → V) (l : List T) (h : a ≠ tm) :
    (l.map fun tp => ((tm, tp), f tp)).lookup (a, b) = none := by
  induction l with
  | nil => rfl
  | cons x xs ih =>
    simp only [List.map_cons, List.lookup]
    cases hx : ((a, b) == (tm, x)) with
    | true =>
      have h2 : a = tm ∧ b = x := by simpa [Prod.ext_iff] using eq_of_beq hx
      exact absurd h2.1 h
    | false => exact ih

theorem lookup_flatMap_pairs {T V : Type} [BEq T] [LawfulBEq T] (l1 l2 : List T)
    (f : T → T → V) (a b : T) (ha : a ∈ l1) (hb : b ∈ l2) :
    (l1.flatMap fun tm => l2.map fun tp => ((tm, tp), f tm tp)).lookup (a, b)
      = some (f a b) := by
  induction l1 with
  | nil => cases ha
  | cons x xs ih =>
    simp only [List.flatMap_cons]
    rw [lookup_append]
    by_cases hax : a = x
    · subst hax
      rw [lookup_map_pairs a (f a) l2 b hb]
      rfl
    · rw [lookup_map_pairs_none a x b (f x) l2 hax]
      simp only [Option.none_or]
      exact ih (by
        rcases List.mem_cons.mp ha with h | h
        · exact absurd h hax
        · exact h)

/-- C4: for every phase-space sample and every generated-event count M above
zero, looking up the pair of a measured triple and a physical triple in the
integral matrix built by calcIntegralMatrix yields 8 pi^2 / M times the sum
over the sample of f_meas times f_phys, with no complex conjugation of either
factor. -/
theorem C4_integral_matrix_entries (maxL : ℕ) {E : Type}
    (fMeas fPhys : ℕ × ℕ × ℕ → E → Cx) (events : List E) (M : ℕ) (hM : 0 < M)
    (tm tp : ℕ × ℕ × ℕ) (hm : tm ∈ momentIndices maxL) (hp : tp ∈ momentIndices maxL) :
    (calcIntegralMatrix maxL fMeas fPhys events M).lookup (tm, tp)
      = some (Cx.ofRat (8 * piVal ^ 2 / (M : ℚ))
        * (events.map fun e => fMeas tm e * fPhys tp e).sum) :=
  lookup_flatMap_pairs (momentIndices maxL) (momentIndices maxL)
    (fun tm2 tp2 => Cx.ofRat (8 * piVal ^ 2 / (M : ℚ))
      * eventSum events fun e => fMeas tm2 e * fPhys tp2 e)
    tm tp hm hp

/-- Witness for C4: a concrete one-event phase-space sample at maxL = 0 with
five generated events and the triples (0, 0, 0) and (1, 1, 1). -/
theorem C4_integral_matrix_entries_witness :
    0 < 5
    ∧ ((0, 0, 0) : ℕ × ℕ × ℕ) ∈ momentIndices 0
    ∧ ((1, 1, 1) : ℕ × ℕ × ℕ) ∈ momentIndices 0
    ∧ (calcIntegralMatrix 0 wBasis (fun t a => Cx.mk (a : ℚ) (t.2.2 : ℚ)) [2] 5).lookup
        ((0, 0, 0), (1, 1, 1))
      = some (Cx.ofRat (8 * piVal ^ 2 / ((5 : ℕ) : ℚ))
        * (([2] : List ℕ).map fun e =>
            wBasis (0, 0, 0) e * (fun t a => Cx.mk (a : ℚ) (t.2.2 : ℚ)) (1, 1, 1) e).sum) :=
  ⟨by decide, by decide, by decide,
    C4_integral_matrix_entries 0 wBasis (fun t a => Cx.mk (a : ℚ) (t.2.2 : ℚ)) [2] 5
      (by decide) (0, 0, 0) (1, 1, 1) (by decide) (by decide)⟩

/-!
## Acceptance correction (testMomentsPhotoProd.py, lines 431 to 445)

np.linalg.inv is an external LAPACK routine; its output is modelled by the
argument Iinv together with the hypothesis that Iinv is a right inverse of the
acceptance integral matrix.
-/

/-- Embeds the acceptance-correction stage of calculatePhotoProdMoments:
H_phys = I_inv H_meas, and the augmented covariance is propagated through the
augmented Jacobian whose diagonal blocks are J = I_inv and conj J and whose
off-diagonal blocks are the zero matrix J_conj and its conjugate. -/
def acceptanceCorrect {n : ℕ} (Iinv : Matrix (Fin n) (Fin n) Cx)
    (H : Fin n → Cx) (V : Matrix (Fin n ⊕ Fin n) (Fin n ⊕ Fin n) Cx) :
    (Fin n → Cx) × Matrix (Fin n ⊕ Fin n) (Fin n ⊕ Fin n) Cx :=
  let J := Iinv
  let Jconj : Matrix (Fin n) (Fin n) Cx := 0
  let Jaug := Matrix.fromBlocks J Jconj (Jconj.map star) (J.map star)
  (J.mulVec H, Jaug * (V * Jaug.conjTranspose))

/-- C2: when an integral matrix is supplied, the corrected moments are the
inverse integral matrix applied to the measured moments, and the corrected
augmented covariance is J_aug V_meas_aug J_aug^H, where J_aug is the block
matrix with diagonal blocks I_acc^(-1) and its elementwise conjugate and with
off-diagonal (conjugate) blocks exactly zero, and ^H is the conjugate
transpose. -/
theorem C2_acceptance_correction {n : ℕ} (Iacc Iinv : Matrix (Fin n) (Fin n) Cx)
    (h : Iacc * Iinv = 1) (H : Fin n → Cx)
    (V : Matrix (Fin n ⊕ Fin n) (Fin n ⊕ Fin n) Cx) :
    (acceptanceCorrect Iinv H V).1 = (Iacc⁻¹).mulVec H
    ∧ (acceptanceCorrect Iinv H V).2
      = Matrix.fromBlocks (Iacc⁻¹) 0 0 ((Iacc⁻¹).map star) * V
        * (Matrix.fromBlocks (Iacc⁻¹) 0 0 ((Iacc⁻¹).map star)).conjTranspose
    ∧ (Matrix.fromBlocks (Iacc⁻¹) 0 0 ((Iacc⁻¹).map star)).toBlocks₁₂ = 0
    ∧ (Matrix.fromBlocks (Iacc⁻¹) 0 0 ((Iacc⁻¹).map star)).toBlocks₂₁ = 0 := by
  have hinv : Iacc⁻¹ = Iinv := Matrix.inv_eq_right_inv h
  refine ⟨?_, ?_, ?_, ?_⟩
  · rw [hinv]
    rfl
  · simp only [acceptanceCorrect]
    rw [show ((0 : Matrix (Fin n) (Fin n) Cx).map star) = 0 from
        Matrix.map_zero _ (star_zero Cx), hinv, Matrix.mul_assoc]
  · exact Matrix.toBlocks_fromBlocks₁₂ _ _ _ _
  · exact Matrix.toBlocks_fromBlocks₂₁ _ _ _ _

/-- Witness for C2 at dimension n = 1 with the identity integral matrix. -/
theorem C2_acceptance_correction_witness :
    ((1 : Matrix (Fin 1) (Fin 1) Cx) * 1 = 1)
    ∧ ((acceptanceCorrect (1 : Matrix (Fin 1) (Fin 1) Cx) (fun _ => Cx.I)
          (fun _ _ => Cx.mk 1 2)).1
        = ((1 : Matrix (Fin 1) (Fin 1) Cx)⁻¹).mulVec (fun _ => Cx.I)) :=
  ⟨Matrix.mul_one 1,
    (C2_acceptance_correction 1 1 (Matrix.mul_one 1) (fun _ => Cx.I)
      (fun _ _ => Cx.mk 1 2)).1⟩

/-!
## Normalization (testMomentsPhotoProd.py, lines 446 to 449)

norm = H_phys[0]; H_phys /= norm; V_phys_aug /= norm**2.  The source performs
no near-zero check on the reference moment; a zero divisor only makes numpy
emit a RuntimeWarning and produce non-finite values, embedded here by the
exact-arithmetic junk value of division by zero.
-/

/-- Embeds the normalization stage: every element of H is divided by the
reference value H at flat index 0, and every element of the augmented
covariance V is divided by the square of that reference value. -/
def normalizeMoments {n : ℕ} [NeZero n] (H : Fin n → Cx)
    (V : Matrix (Fin n ⊕ Fin n) (Fin n ⊕ Fin n) Cx) :
    (Fin n → Cx) × Matrix (Fin n ⊕ Fin n) (Fin n ⊕ Fin n) Cx :=
  (fun k => H k / H 0, fun i j => V i j / H 0 ^ 2)

/-- The normalization stage in an error monad: the source contains no guard at
all between computing the reference value and dividing, so no input aborts. -/
def normalizeMomentsChecked {n : ℕ} [NeZero n] (H : Fin n → Cx)
    (V : Matrix (Fin n ⊕ Fin n) (Fin n ⊕ Fin n) Cx) :
    Except Unit ((Fin n → Cx) × Matrix (Fin n ⊕ Fin n) (Fin n ⊕ Fin n) Cx) :=
  Except.ok (normalizeMoments H V)

/-- Concrete moment vector with purely imaginary reference value, used by the
C5 counterexample. -/
def ceH : Fin (nmbMoments 0) → Cx := fun k => if k = 0 then Cx.I else 0

/-- Concrete augmented covariance with unit entries, used by the C5
counterexample. -/
def ceV : Matrix (Fin (nmbMoments 0) ⊕ Fin (nmbMoments 0))
    (Fin (nmbMoments 0) ⊕ Fin (nmbMoments 0)) Cx := fun _ _ => 1

/-- C5 counterexample: for the purely imaginary reference value i, dividing
the covariance by the square of the reference (what the code does) differs
from dividing by its squared magnitude (what the claim states): the code turns
the covariance entry 1 into -1 while the claim demands 1. -/
theorem C5_squared_magnitude_counterexample :
    (normalizeMoments ceH ceV).2 (Sum.inl 0) (Sum.inl 0)
      ≠ ceV (Sum.inl 0) (Sum.inl 0) / Cx.ofRat (Cx.normSq (ceH 0)) := by
  intro h
  have h2 := congrArg Cx.re h
  norm_num [normalizeMoments, ceH, ceV, Cx.div_def, Cx.I, Cx.normSq, Cx.ofRat,
    pow_two] at h2

/-- C5 amended: the reference value sits at flat index 0, whose triple is
(momentIndex 0, L 0, M 0); every element of H_phys is divided by that
reference value, and the covariance is divided by the square of the reference
value (not its squared magnitude); the two divisors agree exactly when the
reference value is real. -/
theorem C5_normalization (maxL : ℕ) (H : Fin (nmbMoments maxL) → Cx)
    (V : Matrix (Fin (nmbMoments maxL) ⊕ Fin (nmbMoments maxL))
      (Fin (nmbMoments maxL) ⊕ Fin (nmbMoments maxL)) Cx) :
    (∃ t, momentIndices maxL = ((0, 0, 0) : ℕ × ℕ × ℕ) :: t)
    ∧ (normalizeMoments H V).1 = (fun k => H k / H 0)
    ∧ (normalizeMoments H V).2 = (fun i j => V i j / H 0 ^ 2)
    ∧ ((H 0).im = 0 → ∀ i j, (normalizeMoments H V).2 i j
        = V i j / Cx.ofRat (Cx.normSq (H 0))) := by
  refine ⟨momentIndices_head maxL, rfl, rfl, fun h0 i j => ?_⟩
  show V i j / H 0 ^ 2 = _
  have hsq : H 0 ^ 2 = Cx.ofRat (Cx.normSq (H 0)) := by
    ext <;> simp [pow_two, Cx.normSq, h0]
  rw [hsq]

/-- Witness for C5 amended: the real-reference conjunct applied to a concrete
moment vector with real reference value 2. -/
theorem C5_normalization_witness :
    (((fun k => if k = 0 then Cx.mk 2 0 else Cx.I) : Fin (nmbMoments 0) → Cx) 0).im = 0
    ∧ ∀ i j, (normalizeMoments (fun k => if k = 0 then Cx.mk 2 0 else Cx.I) ceV).2 i j
        = ceV i j
          / Cx.ofRat (Cx.normSq (((fun k => if k = 0 then Cx.mk 2 0 else Cx.I)
              : Fin (nmbMoments 0) → Cx) 0)) :=
  ⟨by decide,
    (C5_normalization 0 (fun k => if k = 0 then Cx.mk 2 0 else Cx.I) ceV).2.2.2 (by decide)⟩

/-- Concrete moment vector whose reference value is exactly zero, used by the
C7 counterexample. -/
def ceH0 : Fin (nmbMoments 0) → Cx := fun _ => 0

/-- C7 counterexample: with a reference moment of magnitude exactly zero the
normalization stage still returns normally (Except.ok) instead of aborting
with an error. -/
theorem C7_zero_reference_no_error :
    (normalizeMomentsChecked ceH0 ceV).isOk = true := rfl

/-- C7 amended: the normalization stage never aborts; it performs the division
unconditionally, and a zero reference moment silently yields the degenerate
all-zero output (the exact-arithmetic image of the non-finite values numpy
produces). -/
theorem C7_normalization_never_aborts {n : ℕ} [NeZero n] (H : Fin n → Cx)
    (V : Matrix (Fin n ⊕ Fin n) (Fin n ⊕ Fin n) Cx) :
    normalizeMomentsChecked H V = Except.ok (normalizeMoments H V)
    ∧ (H 0 = 0 → (normalizeMoments H V).1 = (fun _ => 0)
        ∧ (normalizeMoments H V).2 = (fun _ _ => 0)) := by
  have hzinv : (0 : Cx)⁻¹ = 0 := by
    ext <;> simp [Cx.normSq]
  refine ⟨rfl, fun h0 => ⟨?_, ?_⟩⟩
  · funext k
    show H k / H 0 = 0
    rw [h0, Cx.div_def, hzinv, mul_zero]
  · funext i j
    show V i j / H 0 ^ 2 = 0
    rw [h0, pow_two, mul_zero, Cx.div_def, hzinv, mul_zero]

/-- Witness for C7 amended: the concrete all-zero moment vector. -/
theorem C7_normalization_never_aborts_witness :
    ceH0 0 = 0
    ∧ ((normalizeMoments ceH0 ceV).1 = (fun _ => 0)
      ∧ (normalizeMoments ceH0 ceV).2 = (fun _ _ => 0)) :=
  ⟨rfl, (C7_normalization_never_aborts ceH0 ceV).2 rfl⟩

/-!
## Full pipelines and covariance symmetry
-/

/-- Embeds calculatePhotoProdMoments with no integral matrix supplied (ideal
detector): H_phys = H_meas and V_phys_aug = V_meas_aug, followed by
normalization. -/
def photoProdMomentsIdeal (maxL : ℕ) {E : Type} (fMeas : ℕ × ℕ × ℕ → E → Cx)
    (events : List E) :
    (Fin (nmbMoments maxL) → Cx)
      × Matrix (Fin (nmbMoments maxL) ⊕ Fin (nmbMoments maxL))
          (Fin (nmbMoments maxL) ⊕ Fin (nmbMoments maxL)) Cx :=
  normalizeMoments (measuredMoments maxL fMeas events).1
    (measuredMoments maxL fMeas events).2

/-- Embeds calculatePhotoProdMoments with an integral matrix supplied: raw
accumulation, acceptance correction with the inverse integral matrix, then
normalization. -/
def photoProdMomentsCorrected (maxL : ℕ) {E : Type} (fMeas : ℕ × ℕ × ℕ → E → Cx)
    (events : List E)
    (Iinv : Matrix (Fin (nmbMoments maxL)) (Fin (nmbMoments maxL)) Cx) :
    (Fin (nmbMoments maxL) → Cx)
      × Matrix (Fin (nmbMoments maxL) ⊕ Fin (nmbMoments maxL))
          (Fin (nmbMoments maxL) ⊕ Fin (nmbMoments maxL)) Cx :=
  normalizeMoments
    (acceptanceCorrect Iinv (measuredMoments maxL fMeas events).1
      (measuredMoments maxL fMeas events).2).1
    (acceptanceCorrect Iinv (measuredMoments maxL fMeas events).1
      (measuredMoments maxL fMeas events).2).2

theorem eventSum_star {E : Type} (events : List E) (f : E → Cx) :
    star (eventSum events f) = eventSum events fun e => star (f e) := by
  unfold eventSum
  induction events with
  | nil => simp
  | cons x xs ih => simp [ih]

theorem avg_star {E : Type} (events : List E) (x : E → Cx) :
    avg events (fun e => star (x e)) = star (avg events x) := by
  unfold avg
  rw [star_mul', Cx.star_ofRat, eventSum_star]

theorem npCov_conj {ι E : Type} (X : ι → E → Cx) (events : List E) (i j : ι) :
    star (npCov X events j i) = npCov X events i j := by
  unfold npCov
  rw [star_mul', Cx.star_ofRat, eventSum_star]
  congr 1
  congr 1
  funext e
  rw [star_mul', star_star, mul_comm]

theorem npCov_stacked_inl_inr {ι E : Type} (f : ι → E → Cx) (events : List E)
    (i j : ι) :
    npCov (stackedWithConj f) events (Sum.inl i) (Sum.inr j)
      = Cx.ofRat (1 / npCovFact events.length)
        * eventSum events fun e =>
            (f i e - avg events (f i)) * (f j e - avg events (f j)) := by
  unfold npCov stackedWithConj
  simp only [Sum.elim_inl, Sum.elim_inr]
  congr 1
  congr 1
  funext e
  rw [avg_star, ← star_sub, star_star]

theorem measuredMoments_block11_hermitian (maxL : ℕ) {E : Type}
    (fMeas : ℕ × ℕ × ℕ → E → Cx) (events : List E) :
    (measuredMoments maxL fMeas events).2.toBlocks₁₁.IsHermitian := by
  apply Matrix.ext
  intro i j
  show star ((measuredMoments maxL fMeas events).2 (Sum.inl j) (Sum.inl i)) = _
  show star (Cx.ofRat ((2 * piVal) ^ 2 * (events.length : ℚ))
    * npCov (stackedWithConj (fMeasRows maxL fMeas)) events (Sum.inl j) (Sum.inl i)) = _
  rw [star_mul', Cx.star_ofRat, npCov_conj]
  rfl

theorem measuredMoments_block12_symm (maxL : ℕ) {E : Type}
    (fMeas : ℕ × ℕ × ℕ → E → Cx) (events : List E) :
    ((measuredMoments maxL fMeas events).2.toBlocks₁₂).transpose
      = (measuredMoments maxL fMeas events).2.toBlocks₁₂ := by
  apply Matrix.ext
  intro i j
  show Cx.ofRat ((2 * piVal) ^ 2 * (events.length : ℚ))
      * npCov (stackedWithConj (fMeasRows maxL fMeas)) events (Sum.inl j) (Sum.inr i)
    = Cx.ofRat ((2 * piVal) ^ 2 * (events.length : ℚ))
      * npCov (stackedWithConj (fMeasRows maxL fMeas)) events (Sum.inl i) (Sum.inr j)
  rw [npCov_stacked_inl_inr, npCov_stacked_inl_inr]
  congr 3
  funext e
  ring

theorem conjTranspose_map_star {m n : Type} (J : Matrix m n Cx) :
    (J.map star).conjTranspose = J.transpose := by
  apply Matrix.ext
  intro i j
  show star ((J.map star) j i) = J.transpose i j
  rw [Matrix.map_apply, star_star, Matrix.transpose_apply]

theorem acceptanceCorrect_cov_blocks {n : ℕ} (Iinv : Matrix (Fin n) (Fin n) Cx)
    (H : Fin n → Cx) (V : Matrix (Fin n ⊕ Fin n) (Fin n ⊕ Fin n) Cx) :
    (acceptanceCorrect Iinv H V).2
      = Matrix.fromBlocks (Iinv * (V.toBlocks₁₁ * Iinv.conjTranspose))
          (Iinv * (V.toBlocks₁₂ * Iinv.transpose))
          (Iinv.map star * (V.toBlocks₂₁ * Iinv.conjTranspose))
          (Iinv.map star * (V.toBlocks₂₂ * Iinv.transpose)) := by
  show Matrix.fromBlocks Iinv 0 ((0 : Matrix (Fin n) (Fin n) Cx).map star) (Iinv.map star)
      * (V * (Matrix.fromBlocks Iinv 0 ((0 : Matrix (Fin n) (Fin n) Cx).map star)
          (Iinv.map star)).conjTranspose) = _
  rw [show ((0 : Matrix (Fin n) (Fin n) Cx).map star) = 0 from
      Matrix.map_zero _ (star_zero Cx)]
  rw [Matrix.fromBlocks_conjTranspose, Matrix.conjTranspose_zero, conjTranspose_map_star]
  conv_lhs => rw [← Matrix.fromBlocks_toBlocks V]
  rw [Matrix.fromBlocks_multiply, Matrix.fromBlocks_multiply]
  simp only [Matrix.mul_zero, Matrix.zero_mul, add_zero, zero_add]

theorem transpose_sandwich {n : ℕ} (B A : Matrix (Fin n) (Fin n) Cx)
    (hA : A.transpose = A) :
    (B * (A * B.transpose)).transpose = B * (A * B.transpose) := by
  rw [← Matrix.mul_assoc, Matrix.transpose_mul, Matrix.transpose_mul,
    Matrix.transpose_transpose, hA, Matrix.mul_assoc]

theorem hermitian_sandwich {n : ℕ} (B A : Matrix (Fin n) (Fin n) Cx)
    (hA : A.IsHermitian) :
    (B * (A * B.conjTranspose)).IsHermitian := by
  have h := Matrix.isHermitian_mul_mul_conjTranspose B hA
  rwa [Matrix.mul_assoc] at h

/-- C9 amended: the raw augmented covariance satisfies both symmetry
invariants (Hermitian block equal to its conjugate transpose, pseudo block
equal to its transpose); after acceptance correction and normalization the
pseudo block is still equal to its transpose, and the Hermitian block equals
its conjugate transpose whenever the square of the reference moment is real
(in particular whenever the reference moment itself is real); for a reference
moment whose square is not real the Hermitian-block invariant fails, as the
counterexample shows. -/
theorem C9_covariance_symmetry (maxL : ℕ) {E : Type} (fMeas : ℕ × ℕ × ℕ → E → Cx)
    (events : List E)
    (Iinv : Matrix (Fin (nmbMoments maxL)) (Fin (nmbMoments maxL)) Cx) :
    ((measuredMoments maxL fMeas events).2.toBlocks₁₁.IsHermitian
      ∧ ((measuredMoments maxL fMeas events).2.toBlocks₁₂).transpose
          = (measuredMoments maxL fMeas events).2.toBlocks₁₂)
    ∧ (((photoProdMomentsCorrected maxL fMeas events Iinv).2.toBlocks₁₂).transpose
        = (photoProdMomentsCorrected maxL fMeas events Iinv).2.toBlocks₁₂)
    ∧ ((((acceptanceCorrect Iinv (measuredMoments maxL fMeas events).1
            (measuredMoments maxL fMeas events).2).1 0) ^ 2).im = 0 →
        (photoProdMomentsCorrected maxL fMeas events Iinv).2.toBlocks₁₁.IsHermitian) := by
  have hW12 : (Iinv * ((measuredMoments maxL fMeas events).2.toBlocks₁₂
      * Iinv.transpose)).transpose
      = Iinv * ((measuredMoments maxL fMeas events).2.toBlocks₁₂ * Iinv.transpose) :=
    transpose_sandwich Iinv _ (measuredMoments_block12_symm maxL fMeas events)
  have hW11 : (Iinv * ((measuredMoments maxL fMeas events).2.toBlocks₁₁
      * Iinv.conjTranspose)).IsHermitian :=
    hermitian_sandwich Iinv _ (measuredMoments_block11_hermitian maxL fMeas events)
  refine ⟨⟨measuredMoments_block11_hermitian maxL fMeas events,
    measuredMoments_block12_symm maxL fMeas events⟩, ?_, ?_⟩
  · apply Matrix.ext
    intro i j
    show (acceptanceCorrect Iinv (measuredMoments maxL fMeas events).1
        (measuredMoments maxL fMeas events).2).2 (Sum.inl j) (Sum.inr i)
        / ((acceptanceCorrect Iinv (measuredMoments maxL fMeas events).1
            (measuredMoments maxL fMeas events).2).1 0) ^ 2
      = (acceptanceCorrect Iinv (measuredMoments maxL fMeas events).1
          (measuredMoments maxL fMeas events).2).2 (Sum.inl i) (Sum.inr j)
        / ((acceptanceCorrect Iinv (measuredMoments maxL fMeas events).1
            (measuredMoments maxL fMeas events).2).1 0) ^ 2
    congr 1
    rw [acceptanceCorrect_cov_blocks, Matrix.fromBlocks_apply₁₂, Matrix.fromBlocks_apply₁₂]
    exact congrFun (congrFun hW12 i) j
  · intro hc
    apply Matrix.ext
    intro i j
    show star ((acceptanceCorrect Iinv (measuredMoments maxL fMeas events).1
        (measuredMoments maxL fMeas events).2).2 (Sum.inl j) (Sum.inl i)
        / ((acceptanceCorrect Iinv (measuredMoments maxL fMeas events).1
            (measuredMoments maxL fMeas events).2).1 0) ^ 2)
      = (acceptanceCorrect Iinv (measuredMoments maxL fMeas events).1
          (measuredMoments maxL fMeas events).2).2 (Sum.inl i) (Sum.inl j)
        / ((acceptanceCorrect Iinv (measuredMoments maxL fMeas events).1
            (measuredMoments maxL fMeas events).2).1 0) ^ 2
    rw [Cx.star_div, Cx.real_of_im_zero hc]
    congr 1
    rw [acceptanceCorrect_cov_blocks, Matrix.fromBlocks_apply₁₁, Matrix.fromBlocks_apply₁₁]
    exact hW11.apply i j

/-- Witness for C9 amended: with the zero inverse matrix the corrected
reference moment is zero, whose square is real, so the normalized Hermitian
block is Hermitian. -/
theorem C9_covariance_symmetry_witness :
    ((((acceptanceCorrect (0 : Matrix (Fin (nmbMoments 0)) (Fin (nmbMoments 0)) Cx)
        (measuredMoments 0 wBasis wEvents).1 (measuredMoments 0 wBasis wEvents).2).1 0) ^ 2).im
      = 0)
    ∧ (photoProdMomentsCorrected 0 wBasis wEvents 0).2.toBlocks₁₁.IsHermitian := by
  have pf : (((acceptanceCorrect (0 : Matrix (Fin (nmbMoments 0)) (Fin (nmbMoments 0)) Cx)
      (measuredMoments 0 wBasis wEvents).1 (measuredMoments 0 wBasis wEvents).2).1 0) ^ 2).im
      = 0 := by
    show (((0 : Matrix (Fin (nmbMoments 0)) (Fin (nmbMoments 0)) Cx).mulVec
        (measuredMoments 0 wBasis wEvents).1 0) ^ 2).im = 0
    rw [Matrix.zero_mulVec]
    simp [pow_two]
  exact ⟨pf, (C9_covariance_symmetry 0 wBasis wEvents 0).2.2 pf⟩

/-- Basis valuation for the C9 counterexample: the reference basis function
takes value 1 on the first event and i on the second, all other moments
vanish. -/
def c9F : ℕ × ℕ × ℕ → ℕ → Cx :=
  fun t a => if t = (0, 0, 0) then (if a = 0 then Cx.mk 1 0 else Cx.I) else 0

/-- Two-event sample for the C9 counterexample. -/
def c9Events : List ℕ := [0, 1]

/-- C9 counterexample: for a concrete two-event sample whose reference moment
is 2 pi (1 + i), the square of the reference moment is not real, and the
Hermitian block of the final normalized covariance produced by the
ideal-detector pipeline is not equal to its own conjugate transpose. -/
theorem C9_normalized_hermitian_counterexample :
    ¬ (photoProdMomentsIdeal 0 c9F c9Events).2.toBlocks₁₁.IsHermitian := by
  have hget : (momentIndices 0).get (0 : Fin (nmbMoments 0)) = ((0 : ℕ), (0 : ℕ), (0 : ℕ)) := by
    decide
  have hrow : fMeasRows 0 c9F (0 : Fin (nmbMoments 0)) = c9F (0, 0, 0) := by
    unfold fMeasRows
    rw [hget]
  have hH : (measuredMoments 0 c9F c9Events).1 0 = Cx.mk (2 * piVal) (2 * piVal) := by
    show Cx.ofRat (2 * piVal) * eventSum c9Events (fMeasRows 0 c9F 0) = _
    rw [hrow]
    ext <;> simp [eventSum, c9Events, c9F, Cx.I, Cx.ofRat]
  have hV : (measuredMoments 0 c9F c9Events).2 (Sum.inl 0) (Sum.inl 0)
      = Cx.mk ((2 * piVal) ^ 2 * 2) 0 := by
    show Cx.ofRat ((2 * piVal) ^ 2 * (c9Events.length : ℚ))
        * npCov (stackedWithConj (fMeasRows 0 c9F)) c9Events (Sum.inl 0) (Sum.inl 0) = _
    unfold npCov stackedWithConj
    simp only [Sum.elim_inl]
    rw [hrow]
    ext <;> simp [avg, eventSum, c9Events, c9F, npCovFact, Cx.I, Cx.ofRat] <;> norm_num
  have hM : (photoProdMomentsIdeal 0 c9F c9Events).2.toBlocks₁₁ 0 0 = Cx.mk 0 (-1) := by
    show (measuredMoments 0 c9F c9Events).2 (Sum.inl 0) (Sum.inl 0)
        / ((measuredMoments 0 c9F c9Events).1 0) ^ 2 = Cx.mk 0 (-1)
    rw [hH, hV]
    have hp : piVal ≠ 0 := by norm_num [piVal]
    ext <;> simp [Cx.div_def, Cx.normSq, pow_two] <;> field_simp <;> ring
  intro h
  have h2 := h.apply 0 0
  rw [hM] at h2
  have h3 := congrArg Cx.im h2
  norm_num at h3

end Moments
